import Mathlib

/-!
Shallow embedding of `rust/ltp/src/perceptron/definition/pos.rs`.

Text is modelled as `List Char` (a Rust `&str` viewed as its sequence of
Unicode scalar values, which is also exactly what `w.chars()` collects into
the per-token `SmallVec<[char; 4]>`).  A Rust panic (out-of-bounds index,
`expect` failure, missing `HashMap` key) is modelled as `Option.none`;
fallible functions return `Option`.
-/

namespace POS

/-- A token (Rust `&str`) as its list of Unicode scalar values. -/
abbrev Word := List Char

/-- A feature key (the formatted `String` pushed into `feature`). -/
abbrev Feature := List Char

/-- Decimal rendering of a `usize`, as Rust `format!("{}", n)` produces. -/
def natDigits (n : Nat) : List Char := (Nat.repr n).data

/-- The marker array `prefix_id = &['c', 'd', 'e']` (pos.rs line 84). -/
def prefix_id : List Char := ['c', 'd', 'e']

/-- The marker array `suffix_id = &['f', 'g', 'h']` (pos.rs line 93). -/
def suffix_id : List Char := ['f', 'g', 'h']

/-- The unconditional pushes of `parse_words_features` (pos.rs lines 72-101):
`"2{}"` of the word, `"c{}{}"` of first+last char, `"f{}"` of the char length,
the prefix run over `chars.iter().take(3).enumerate()` and the suffix run over
`chars.iter().rev().take(3).enumerate()`.  `c0`/`cn` are the already-fetched
`chars[idx][0]` and `chars[idx][chars[idx].len() - 1]`. -/
def baseBlock (cur_word : Word) (c0 cn : Char) : List Feature :=
  ['2' :: cur_word, ['c', c0, cn], 'f' :: natDigits cur_word.length]
    ++ (cur_word.take 3).enum.map (fun bc => [prefix_id.getD bc.1 'c', bc.2])
    ++ (cur_word.reverse.take 3).enum.map (fun bc => [suffix_id.getD bc.1 'f', bc.2])

/-- The `if idx > 0 { ... if idx > 1 { ... } }` block (pos.rs lines 103-118):
markers `1`, `6`, `d` and, two tokens in, `0`, `5`, `9`.  The access
`chars[idx - 1][chars[idx - 1].len() - 1]` panics when the previous word is
empty, hence the `Option`. -/
def preBlock (words : List Word) (idx : Nat) (cur_word : Word) (c0 : Char) :
    Option (List Feature) :=
  let pre_word := if idx > 0 then words.getD (idx - 1) [] else []
  let pre2_word := if idx > 1 then words.getD (idx - 2) [] else []
  if idx > 0 then
    match pre_word.get? (pre_word.length - 1) with
    | some pn =>
      some (['1' :: pre_word, '6' :: (pre_word ++ cur_word), ['d', pn, c0]]
        ++ (if idx > 1 then
              ['0' :: pre2_word, '5' :: (pre2_word ++ pre_word),
               '9' :: (pre2_word ++ cur_word)]
            else []))
    | none => none
  else some []

/-- The `if last > 0 { ... if last > 1 { ... } }` block (pos.rs lines 120-135):
markers `3`, `7`, `e` and, two tokens from the end, `4`, `8`, `a`.  The access
`chars[idx + 1][0]` panics when the next word is empty. -/
def nextBlock (words : List Word) (idx : Nat) (cur_word : Word) (cn : Char) :
    Option (List Feature) :=
  let last := words.length - idx - 1
  let next_word := if last > 0 then words.getD (idx + 1) [] else []
  let next2_word := if last > 1 then words.getD (idx + 2) [] else []
  if last > 0 then
    match next_word.get? 0 with
    | some n0 =>
      some (['3' :: next_word, '7' :: (cur_word ++ next_word), ['e', cn, n0]]
        ++ (if last > 1 then
              ['4' :: next2_word, '8' :: (next_word ++ next2_word),
               'a' :: (cur_word ++ next2_word)]
            else []))
    | none => none
  else some []

/-- One iteration of the `for (idx, &cur_word) in words.iter().enumerate()`
loop of `parse_words_features` (pos.rs lines 61-142): the feature list pushed
for position `idx`.  `chars[idx][0]` and `chars[idx][chars[idx].len() - 1]`
panic (`none`) when the current word is empty. -/
def featuresAt (words : List Word) (idx : Nat) : Option (List Feature) :=
  let cur_word := words.getD idx []
  let last := words.length - idx - 1
  match cur_word.get? 0, cur_word.get? (cur_word.length - 1) with
  | some c0, some cn =>
    match preBlock words idx cur_word c0, nextBlock words idx cur_word cn with
    | some pb, some nb =>
      some (baseBlock cur_word c0 cn ++ pb ++ nb
        ++ (if idx > 0 ∧ last > 0 then
              ['b' :: (words.getD (idx - 1) [] ++ cur_word ++ words.getD (idx + 1) [])]
            else []))
    | _, _ => none
  | _, _ => none

/-- The outer loop of `parse_words_features`: push the feature list of every
index in order, propagating a panic. -/
def collectFeatures (words : List Word) : List Nat → Option (List (List Feature))
  | [] => some []
  | i :: is =>
    match featuresAt words i, collectFeatures words is with
    | some f, some rest => some (f :: rest)
    | _, _ => none

/-- `POSDefinition::parse_words_features` (pos.rs lines 51-145). -/
def parse_words_features (words : List Word) : Option (List (List Feature)) :=
  collectFeatures words (List.range words.length)

/-- Modelled from the spec: the `buf_feature!` macro (declared in the crate
outside this file) formats the feature, appends its bytes contiguously onto
the shared `buffer`, and pushes the new end offset of the buffer onto `feature`
("appends the bytes of every feature contiguously into `buffer` and returns, per
token, the list of byte ranges ... delimiting each feature within `buffer`").
State is `(buffer, feature)`; the recorded offset is the length after the
append. -/
def pushFeat (st : List Char × List Nat) (f : Feature) : List Char × List Nat :=
  (st.1 ++ f, st.2 ++ [st.1.length + f.length])

/-- Push a whole list of features in order. -/
def pushAll (st : List Char × List Nat) (fs : List Feature) : List Char × List Nat :=
  fs.foldl pushFeat st

/-- The unconditional `buf_feature!` calls of `parse_words_features_with_buffer`
(pos.rs lines 169-193), threading the `(buffer, feature)` state. -/
def pushBase (st : List Char × List Nat) (cur_word : Word) (c0 cn : Char) :
    List Char × List Nat :=
  let st := pushFeat st ('2' :: cur_word)
  let st := pushFeat st ['c', c0, cn]
  let st := pushFeat st ('f' :: natDigits cur_word.length)
  let st := (cur_word.take 3).enum.foldl
    (fun st bc => pushFeat st [prefix_id.getD bc.1 'c', bc.2]) st
  (cur_word.reverse.take 3).enum.foldl
    (fun st bc => pushFeat st [suffix_id.getD bc.1 'f', bc.2]) st

/-- The `if idx > 0` block of `parse_words_features_with_buffer`
(pos.rs lines 195-211). -/
def pushPre (words : List Word) (idx : Nat) (cur_word : Word) (c0 : Char)
    (st : List Char × List Nat) : Option (List Char × List Nat) :=
  let pre_word := if idx > 0 then words.getD (idx - 1) [] else []
  let pre2_word := if idx > 1 then words.getD (idx - 2) [] else []
  if idx > 0 then
    match pre_word.get? (pre_word.length - 1) with
    | some pn =>
      let st := pushFeat st ('1' :: pre_word)
      let st := pushFeat st ('6' :: (pre_word ++ cur_word))
      let st := pushFeat st ['d', pn, c0]
      some (if idx > 1 then
              let st := pushFeat st ('0' :: pre2_word)
              let st := pushFeat st ('5' :: (pre2_word ++ pre_word))
              pushFeat st ('9' :: (pre2_word ++ cur_word))
            else st)
    | none => none
  else some st

/-- The `if last > 0` block of `parse_words_features_with_buffer`
(pos.rs lines 213-229). -/
def pushNext (words : List Word) (idx : Nat) (cur_word : Word) (cn : Char)
    (st : List Char × List Nat) : Option (List Char × List Nat) :=
  let last := words.length - idx - 1
  let next_word := if last > 0 then words.getD (idx + 1) [] else []
  let next2_word := if last > 1 then words.getD (idx + 2) [] else []
  if last > 0 then
    match next_word.get? 0 with
    | some n0 =>
      let st := pushFeat st ('3' :: next_word)
      let st := pushFeat st ('7' :: (cur_word ++ next_word))
      let st := pushFeat st ['e', cn, n0]
      some (if last > 1 then
              let st := pushFeat st ('4' :: next2_word)
              let st := pushFeat st ('8' :: (next_word ++ next2_word))
              pushFeat st ('a' :: (cur_word ++ next2_word))
            else st)
    | none => none
  else some st

/-- One iteration of the token loop of `parse_words_features_with_buffer`
(pos.rs lines 157-235): returns the grown buffer and the end-offset list
pushed for this token. -/
def featuresAtBuf (words : List Word) (idx : Nat) (buffer : List Char) :
    Option (List Char × List Nat) :=
  let cur_word := words.getD idx []
  let last := words.length - idx - 1
  match cur_word.get? 0, cur_word.get? (cur_word.length - 1) with
  | some c0, some cn =>
    let st := pushBase (buffer, []) cur_word c0 cn
    match pushPre words idx cur_word c0 st with
    | some st =>
      match pushNext words idx cur_word cn st with
      | some st =>
        some (if idx > 0 ∧ last > 0 then
                pushFeat st
                  ('b' :: (words.getD (idx - 1) [] ++ cur_word ++ words.getD (idx + 1) []))
              else st)
      | none => none
    | none => none
  | _, _ => none

/-- The outer token loop of `parse_words_features_with_buffer`: thread the
buffer through every index, collecting the end-offset list of each token. -/
def collectFeaturesBuf (words : List Word) :
    List Nat → List Char × List (List Nat) → Option (List Char × List (List Nat))
  | [], st => some st
  | i :: is, st =>
    match featuresAtBuf words i st.1 with
    | some r => collectFeaturesBuf words is (r.1, st.2 ++ [r.2])
    | none => none

/-- The inner decode loop of `parse_words_features_with_buffer`
(pos.rs lines 241-246): for each recorded end offset, slice
`&buffer[start..end]` and advance `start`.  Returns the final `start` and the
decoded features. -/
def decodeOne (buf : List Char) (start : Nat) : List Nat → Nat × List Feature
  | [] => (start, [])
  | e :: es =>
    let s := (buf.drop start).take (e - start)
    let r := decodeOne buf e es
    (r.1, s :: r.2)

/-- The outer decode loop of `parse_words_features_with_buffer`
(pos.rs lines 238-248), starting from absolute offset `0`. -/
def decodeAll (buf : List Char) (start : Nat) : List (List Nat) → List (List Feature)
  | [] => []
  | fe :: fes =>
    let r := decodeOne buf start fe
    r.2 :: decodeAll buf r.1 fes

/-- `POSDefinition::parse_words_features_with_buffer` (pos.rs lines 147-250):
fill the buffer recording end offsets, then decode every feature as a slice of
the buffer starting from absolute offset `0`.  Also returns the final buffer
(the caller keeps it). -/
def parse_words_features_with_buffer (words : List Word) (buffer : List Char) :
    Option (List Char × List (List Feature)) :=
  match collectFeaturesBuf words (List.range words.length) (buffer, []) with
  | some (buf, fes) => some (buf, decodeAll buf 0 fes)
  | none => none

/-- `POSDefinition` (pos.rs lines 16-19).  The `labels_to` hash map is built
from `to_labels` by `new` and is a derived view, so only the ordered label
list is stored; lookups recover the last-insertion-wins semantics of the map. -/
structure POSDefinition where
  to_labels : List Word
deriving DecidableEq

namespace POSDefinition

/-- `POSDefinition::new` (pos.rs lines 22-32). -/
def new (to_labels : List Word) : POSDefinition := ⟨to_labels⟩

/-- `Definition::labels` for `POSDefinition` (pos.rs lines 258-260). -/
def labels (d : POSDefinition) : List Word := d.to_labels

/-- `Definition::label_num` (pos.rs lines 262-264). -/
def label_num (d : POSDefinition) : Nat := d.to_labels.length

/-- `Definition::label_to` (pos.rs lines 266-268): `self.labels_to[label]`.
The map collected by `new` from `(label, i)` pairs keeps the last index for a
duplicated label, and indexing a missing key panics (`none`). -/
def label_to (d : POSDefinition) (label : Word) : Option Nat :=
  (d.to_labels.enum.reverse.find? (fun p => p.2 == label)).map Prod.fst

/-- `Definition::to_label` (pos.rs lines 270-272): `&self.to_labels[index]`,
panicking (`none`) out of range. -/
def to_label (d : POSDefinition) (index : Nat) : Option Word :=
  d.to_labels.get? index

end POSDefinition

/-- A training sample: per-token feature sets paired with label indices
(`Sample` of the perceptron module, as produced at pos.rs line 308). -/
abbrev Sample := List (List Feature) × List Nat

/-- Rust `str::split_whitespace` (pos.rs line 297), one character at a time:
`acc` holds the reversed run of non-whitespace characters read so far. -/
def splitWSAux : Word → Word → List Word
  | [], acc => if acc.isEmpty then [] else [acc.reverse]
  | c :: cs, acc =>
    if c.isWhitespace then
      if acc.isEmpty then splitWSAux cs [] else acc.reverse :: splitWSAux cs []
    else splitWSAux cs (c :: acc)

/-- Rust `str::split_whitespace` (pos.rs line 297): maximal runs of
non-whitespace characters, empty runs skipped. -/
def splitWS (l : Word) : List Word := splitWSAux l []

/-- `word_tag.rsplitn(2, '/').collect_tuple()` (pos.rs lines 302-303): split
the token at its rightmost `/` into `(label, word)` — the label is the part
after that `/`, the word everything before it.  A token with no `/` makes
`collect_tuple` yield `None` and `expect("tag not found")` panic (`none`). -/
def rsplit2 (t : Word) : Option (Word × Word) :=
  let r := t.reverse
  let lab := r.takeWhile (fun x => x != '/')
  match r.dropWhile (fun x => x != '/') with
  | [] => none
  | _ :: wr => some (lab.reverse, wr.reverse)

/-- The `for word_tag in words_tags` loop (pos.rs lines 301-306): split each
token, resolve its tag through `label_to`, and accumulate the word and label
sequences in order. -/
def collectWT (d : POSDefinition) : List Word → Option (List Word × List Nat)
  | [] => some ([], [])
  | t :: ts =>
    match rsplit2 t with
    | none => none
    | some (label, word) =>
      match d.label_to label, collectWT d ts with
      | some li, some r => some (word :: r.1, li :: r.2)
      | _, _ => none

/-- The per-line closure of `parse_gold_features` (pos.rs lines 296-308):
split the sentence on whitespace, parse every `word/tag` token, then run the
allocating feature extraction on the word sequence. -/
def parse_line (d : POSDefinition) (line : Word) : Option Sample :=
  match collectWT d (splitWS line) with
  | some (words, labels) =>
    match parse_words_features words with
    | some features => some (features, labels)
    | none => none
  | none => none

/-- Map `parse_line` over the non-blank lines in order, propagating a panic. -/
def collectSamples (d : POSDefinition) : List Word → Option (List Sample)
  | [] => some []
  | l :: ls =>
    match parse_line d l, collectSamples d ls with
    | some s, some rest => some (s :: rest)
    | _, _ => none

/-- `Definition::parse_gold_features` (pos.rs lines 289-313 and 316-337): the
input stream as its list of lines; blank lines are filtered out, then each
line is parsed.  The rayon `par_iter().map(..).collect_into_vec` of the
parallel build is an order-preserving indexed map, so both builds are embedded
as the in-order map over the filtered lines. -/
def parse_gold_features (d : POSDefinition) (lines : List Word) : Option (List Sample) :=
  collectSamples d (lines.filter (fun s => !s.isEmpty))

/-- Ghost recombinator for the proofs: the end offsets recorded when features
`fs` are appended to a buffer that currently holds `n` characters. -/
def endsFrom (n : Nat) : List Feature → List Nat
  | [] => []
  | f :: fs => (n + f.length) :: endsFrom (n + f.length) fs

/-- Ghost recombinator: the per-token end-offset lists recorded when the
feature lists of the tokens are appended one after another from offset `n`. -/
def endsAll (n : Nat) : List (List Feature) → List (List Nat)
  | [] => []
  | fs :: fss => endsFrom n fs :: endsAll (n + fs.flatten.length) fss

/-- Ghost recombinator: run `pushAll` once per token over a shared buffer,
collecting the end-offset list of each token — the state evolution of
`collectFeaturesBuf` expressed over the already-extracted feature lists. -/
def encodeAll (buf : List Char) (acc : List (List Nat)) :
    List (List Feature) → List Char × List (List Nat)
  | [] => (buf, acc)
  | fs :: fss =>
    encodeAll (pushAll (buf, []) fs).1 (acc ++ [(pushAll (buf, []) fs).2]) fss

/-! ## Theorems -/

theorem pushAll_nil (st : List Char × List Nat) : pushAll st [] = st := rfl

theorem pushAll_cons (st : List Char × List Nat) (f : Feature) (fs : List Feature) :
    pushAll st (f :: fs) = pushAll (pushFeat st f) fs := rfl

theorem pushAll_append (st : List Char × List Nat) (a b : List Feature) :
    pushAll st (a ++ b) = pushAll (pushAll st a) b :=
  List.foldl_append _ _ _ _

theorem foldl_push_map {β : Type} (g : β → Feature) (l : List β)
    (st : List Char × List Nat) :
    l.foldl (fun st x => pushFeat st (g x)) st = pushAll st (l.map g) :=
  (List.foldl_map g pushFeat l st).symm

theorem pushFeat_eq_pushAll (st : List Char × List Nat) (f : Feature) :
    pushFeat st f = pushAll st [f] := rfl

/-- The buffered base block pushes exactly the allocating base block. -/
theorem pushBase_eq (st : List Char × List Nat) (cur_word : Word) (c0 cn : Char) :
    pushBase st cur_word c0 cn = pushAll st (baseBlock cur_word c0 cn) := by
  simp only [pushBase, baseBlock, pushAll_append, foldl_push_map, pushAll_cons, pushAll_nil]

/-- The buffered `idx > 0` block pushes exactly the allocating `preBlock`. -/
theorem pushPre_eq (words : List Word) (idx : Nat) (cur_word : Word) (c0 : Char)
    (st : List Char × List Nat) :
    pushPre words idx cur_word c0 st
      = (preBlock words idx cur_word c0).map (pushAll st) := by
  simp only [pushPre, preBlock]
  split
  · split
    · by_cases h1 : idx > 1 <;>
        simp [h1, pushAll_append, pushAll_cons, pushAll_nil]
    · rfl
  · rfl

/-- The buffered `last > 0` block pushes exactly the allocating `nextBlock`. -/
theorem pushNext_eq (words : List Word) (idx : Nat) (cur_word : Word) (cn : Char)
    (st : List Char × List Nat) :
    pushNext words idx cur_word cn st
      = (nextBlock words idx cur_word cn).map (pushAll st) := by
  simp only [pushNext, nextBlock]
  split
  · split
    · by_cases h1 : words.length - idx - 1 > 1 <;>
        simp [h1, pushAll_append, pushAll_cons, pushAll_nil]
    · rfl
  · rfl

/-- Per token, the buffered extraction pushes exactly the feature list of the
allocating extraction, and fails exactly when it fails. -/
theorem featuresAtBuf_eq (words : List Word) (idx : Nat) (buffer : List Char) :
    featuresAtBuf words idx buffer
      = (featuresAt words idx).map (fun fs => pushAll (buffer, []) fs) := by
  simp only [featuresAtBuf, featuresAt]
  cases h0 : (words.getD idx []).get? 0 with
  | none => rfl
  | some c0 =>
    cases hn : (words.getD idx []).get? ((words.getD idx []).length - 1) with
    | none => rfl
    | some cn =>
      dsimp only
      rw [pushBase_eq, pushPre_eq]
      cases hp : preBlock words idx (words.getD idx []) c0 with
      | none => rfl
      | some pb =>
        dsimp only [Option.map]
        rw [pushNext_eq]
        cases hx : nextBlock words idx (words.getD idx []) cn with
        | none => rfl
        | some nb =>
          dsimp only [Option.map]
          split_ifs with hb <;> simp [pushAll_append, pushAll_cons, pushAll_nil]

/-- The buffered token loop is the allocating token loop followed by the
encode pass, for any starting buffer and accumulator. -/
theorem collectFeaturesBuf_eq (words : List Word) (L : List Nat)
    (buf : List Char) (acc : List (List Nat)) :
    collectFeaturesBuf words L (buf, acc)
      = (collectFeatures words L).map (fun fss => encodeAll buf acc fss) := by
  induction L generalizing buf acc with
  | nil => rfl
  | cons i is ih =>
    simp only [collectFeaturesBuf, collectFeatures, featuresAtBuf_eq]
    cases h : featuresAt words i with
    | none => rfl
    | some fs =>
      dsimp only [Option.map]
      rw [ih]
      cases hr : collectFeatures words is with
      | none => rfl
      | some rest => rfl

/-- Appending features one at a time grows the buffer by their concatenation
and records the running end offsets. -/
theorem pushAll_spec (fs : List Feature) (buf : List Char) (e : List Nat) :
    pushAll (buf, e) fs = (buf ++ fs.flatten, e ++ endsFrom buf.length fs) := by
  induction fs generalizing buf e with
  | nil => simp [pushAll, endsFrom]
  | cons f fs ih =>
    rw [pushAll_cons]
    simp only [pushFeat]
    rw [ih]
    simp [endsFrom, List.append_assoc]

/-- The encode pass appends the features of every token and records, per
token, the end-offset list. -/
theorem encodeAll_spec (fss : List (List Feature)) (buf : List Char)
    (acc : List (List Nat)) :
    encodeAll buf acc fss
      = (buf ++ (fss.map List.flatten).flatten, acc ++ endsAll buf.length fss) := by
  induction fss generalizing buf acc with
  | nil => simp [encodeAll, endsAll]
  | cons fs fss ih =>
    simp only [encodeAll, pushAll_spec, List.append_nil, List.nil_append]
    rw [ih]
    simp [endsAll, List.append_assoc]

/-- Decoding the end offsets of `fs` out of a buffer that holds exactly
`fs.flatten` at position `pre.length` returns `fs` and stops at its end. -/
theorem decodeOne_spec (fs : List Feature) (pre post : List Char) :
    decodeOne (pre ++ fs.flatten ++ post) pre.length (endsFrom pre.length fs)
      = (pre.length + fs.flatten.length, fs) := by
  induction fs generalizing pre with
  | nil => simp [decodeOne, endsFrom]
  | cons f fs ih =>
    have hbuf : pre ++ (f :: fs).flatten ++ post = (pre ++ f) ++ fs.flatten ++ post := by
      simp [List.append_assoc]
    have hrec := ih (pre ++ f)
    rw [List.length_append] at hrec
    have hdrop : ((pre ++ f) ++ fs.flatten ++ post).drop pre.length
        = f ++ (fs.flatten ++ post) := by
      have h2 : (pre ++ f) ++ fs.flatten ++ post = pre ++ (f ++ (fs.flatten ++ post)) := by
        simp [List.append_assoc]
      rw [h2, List.drop_left]
    simp only [endsFrom, decodeOne, hbuf]
    rw [hrec, hdrop, Nat.add_sub_cancel_left, List.take_left]
    simp [Nat.add_assoc]

/-- Decoding all recorded end-offset lists from the position where their
features start recovers exactly the feature lists. -/
theorem decodeAll_spec (fss : List (List Feature)) (pre post : List Char) :
    decodeAll (pre ++ (fss.map List.flatten).flatten ++ post) pre.length
        (endsAll pre.length fss) = fss := by
  induction fss generalizing pre with
  | nil => simp [decodeAll, endsAll]
  | cons fs fss ih =>
    simp only [endsAll, decodeAll, List.map_cons, List.flatten_cons]
    have hbuf : pre ++ (fs.flatten ++ (fss.map List.flatten).flatten) ++ post
        = (pre ++ fs.flatten) ++ (fss.map List.flatten).flatten ++ post := by
      simp [List.append_assoc]
    have hone : decodeOne (pre ++ (fs.flatten ++ (fss.map List.flatten).flatten) ++ post)
        pre.length (endsFrom pre.length fs) = (pre.length + fs.flatten.length, fs) := by
      have : pre ++ (fs.flatten ++ (fss.map List.flatten).flatten) ++ post
          = pre ++ fs.flatten ++ ((fss.map List.flatten).flatten ++ post) := by
        simp [List.append_assoc]
      rw [this]
      exact decodeOne_spec fs pre _
    rw [hone]
    dsimp only
    rw [hbuf]
    have hih := ih (pre ++ fs.flatten)
    rw [List.length_append] at hih
    rw [hih]

/-- Closed form of the buffered extraction for any initial buffer: it is the
allocating extraction followed by appending all features and decoding the
recorded offsets from absolute offset `0`. -/
theorem with_buffer_spec (words : List Word) (buffer : List Char) :
    parse_words_features_with_buffer words buffer
      = (parse_words_features words).map
          (fun fss => (buffer ++ (fss.map List.flatten).flatten,
             decodeAll (buffer ++ (fss.map List.flatten).flatten) 0
               (endsAll buffer.length fss))) := by
  unfold parse_words_features_with_buffer parse_words_features
  rw [collectFeaturesBuf_eq]
  cases h : collectFeatures words (List.range words.length) with
  | none => rfl
  | some fss =>
    dsimp only [Option.map]
    rw [encodeAll_spec]
    simp only [List.nil_append]

/-- With an initially empty buffer, decoding recovers exactly the allocating
feature lists of the allocating extraction, and the buffer ends up holding their
concatenation. -/
theorem with_buffer_empty_spec (words : List Word) :
    parse_words_features_with_buffer words []
      = (parse_words_features words).map
          (fun fss => ((fss.map List.flatten).flatten, fss)) := by
  rw [with_buffer_spec]
  cases h : parse_words_features words with
  | none => rfl
  | some fss =>
    dsimp only [Option.map]
    have hd := decodeAll_spec fss [] []
    simp only [List.nil_append, List.append_nil, List.length_nil] at hd
    simp only [List.nil_append, List.length_nil, hd]

/-- C1 (corrected): as stated — for every buffer — the claim is false; the
decode starts at absolute offset 0, so a non-empty initial buffer leaks its
pre-existing content into the first returned slice. -/
theorem c1_counterexample :
    (parse_words_features_with_buffer [['a']] ['x']).map Prod.snd
      ≠ parse_words_features [['a']] := by decide

/-- C1 (amended): for every token sequence `W`, with an initial buffer that is
empty at call entry, `parse_words_features_with_buffer` produces feature
sequences content-identical to `parse_words_features` — the same number of
feature sets, the same feature count per token, and element-wise equal
strings in the same order (here: full equality of the decoded structure). -/
theorem extract_into_refines_extract (words : List Word) :
    (parse_words_features_with_buffer words []).map Prod.snd
      = parse_words_features words := by
  rw [with_buffer_empty_spec]
  cases parse_words_features words <;> rfl

/-- C10: the buffered extraction decodes its slices from absolute offset 0 of
the buffer: on a concrete non-empty initial buffer the result differs from the
allocating mode and the first returned slice starts with the
pre-existing buffer content, while under the empty-buffer precondition the returned
slices concatenated in emission order are exactly the appended buffer — a
partition with no gaps or overlaps. -/
theorem buffer_decode_from_offset_zero :
    ((parse_words_features_with_buffer [['b']] ['y']).map Prod.snd
        ≠ parse_words_features [['b']])
    ∧ ((parse_words_features_with_buffer [['b']] ['y']).map
          (fun r => (r.2.headD []).headD []) = some ['y', '2', 'b'])
    ∧ (∀ words buf fss,
        parse_words_features_with_buffer words [] = some (buf, fss) →
        (fss.map List.flatten).flatten = buf) := by
  refine ⟨by decide, by decide, ?_⟩
  intro words buf fss h
  rw [with_buffer_empty_spec] at h
  cases hp : parse_words_features words with
  | none => rw [hp] at h; exact absurd h (by simp)
  | some fss2 =>
    rw [hp] at h
    dsimp only [Option.map] at h
    cases h
    rfl

/-- Witness for C10: the partition property evaluated on the one-token
sentence `["a"]`. -/
theorem buffer_decode_from_offset_zero_witness :
    ([[['2', 'a'], ['c', 'a', 'a'], ['f', '1'], ['c', 'a'], ['f', 'a']]].map
        List.flatten).flatten
      = ['2', 'a', 'c', 'a', 'a', 'f', '1', 'c', 'a', 'f', 'a'] :=
  buffer_decode_from_offset_zero.2.2 [['a']]
    ['2', 'a', 'c', 'a', 'a', 'f', '1', 'c', 'a', 'f', 'a']
    [[['2', 'a'], ['c', 'a', 'a'], ['f', '1'], ['c', 'a'], ['f', 'a']]]
    (by decide)

theorem getD_mem (l : List Word) (n : Nat) (h : n < l.length) : l.getD n [] ∈ l := by
  rw [List.getD_eq_get l [] h]
  exact List.get_mem l n h

/-- When position `idx - 1` exists and every word is non-empty, the `idx > 0`
block finds its previous-word character and succeeds. -/
theorem preBlock_isSome (words : List Word) (idx : Nat) (cur_word : Word) (c0 : Char)
    (hidx : idx < words.length) (hw : ∀ w ∈ words, w ≠ []) :
    (preBlock words idx cur_word c0).isSome = true := by
  simp only [preBlock]
  split
  next h =>
    have hpm : words.getD (idx - 1) [] ≠ [] :=
      hw _ (getD_mem words (idx - 1) (by omega))
    have hp : 0 < (words.getD (idx - 1) []).length := List.length_pos.mpr hpm
    rw [List.get?_eq_get (Nat.sub_lt hp Nat.one_pos)]
    exact Option.isSome_some
  next h => rfl

/-- When every word is non-empty, the `last > 0` block finds its next-word
character and succeeds. -/
theorem nextBlock_isSome (words : List Word) (idx : Nat) (cur_word : Word) (cn : Char)
    (hw : ∀ w ∈ words, w ≠ []) :
    (nextBlock words idx cur_word cn).isSome = true := by
  simp only [nextBlock]
  split
  next h =>
    have hnm : words.getD (idx + 1) [] ≠ [] :=
      hw _ (getD_mem words (idx + 1) (by omega))
    have hp : 0 < (words.getD (idx + 1) []).length := List.length_pos.mpr hnm
    rw [List.get?_eq_get hp]
    exact Option.isSome_some
  next h => rfl

/-- Every in-range position of a sentence of non-empty words extracts
successfully. -/
theorem featuresAt_isSome (words : List Word) (idx : Nat) (hidx : idx < words.length)
    (hw : ∀ w ∈ words, w ≠ []) : (featuresAt words idx).isSome = true := by
  have hcur : words.getD idx [] ≠ [] := hw _ (getD_mem words idx hidx)
  have hlen : 0 < (words.getD idx []).length := List.length_pos.mpr hcur
  simp only [featuresAt]
  rw [List.get?_eq_get hlen, List.get?_eq_get (Nat.sub_lt hlen Nat.one_pos)]
  dsimp only
  obtain ⟨pb, hpb⟩ := Option.isSome_iff_exists.mp
    (preBlock_isSome words idx (words.getD idx []) _ hidx hw)
  obtain ⟨nb, hnb⟩ := Option.isSome_iff_exists.mp
    (nextBlock_isSome words idx (words.getD idx []) _ hw)
  rw [hpb, hnb]
  exact Option.isSome_some

/-- The extraction loop succeeds on any list of in-range indices when every
word is non-empty. -/
theorem collectFeatures_isSome (words : List Word) (hw : ∀ w ∈ words, w ≠ [])
    (L : List Nat) (hL : ∀ i ∈ L, i < words.length) :
    (collectFeatures words L).isSome = true := by
  induction L with
  | nil => rfl
  | cons i is ih =>
    simp only [collectFeatures]
    obtain ⟨f, hf⟩ := Option.isSome_iff_exists.mp
      (featuresAt_isSome words i (hL i (by simp)) hw)
    obtain ⟨rest, hrest⟩ := Option.isSome_iff_exists.mp
      (ih (fun j hj => hL j (by simp [hj])))
    rw [hf, hrest]
    exact Option.isSome_some

/-- A single panicking position makes the whole extraction loop panic. -/
theorem collectFeatures_none (words : List Word) (L : List Nat) (i : Nat)
    (hi : i ∈ L) (hnone : featuresAt words i = none) :
    collectFeatures words L = none := by
  induction L with
  | nil => cases hi
  | cons j js ih =>
    simp only [collectFeatures]
    rcases List.mem_cons.mp hi with h | h
    · subst h
      rw [hnone]
    · rw [ih h]
      cases featuresAt words j <;> rfl

/-- An empty word at position `idx` makes `chars[idx][0]` go out of bounds. -/
theorem featuresAt_empty (words : List Word) (idx : Nat)
    (h : words.getD idx [] = []) : featuresAt words idx = none := by
  unfold featuresAt
  rw [h]
  rfl

/-- C9: both extraction entry points are total exactly under the unstated
precondition that every input word is non-empty: with it, every character
access is in bounds and both modes return a result; an empty-string token
makes the character access `chars[idx][0]` go out of bounds (modelled `none`)
in both modes, for any initial buffer. -/
theorem extraction_total_iff_words_nonempty :
    (∀ words buf, (∀ w ∈ words, w ≠ []) →
        (parse_words_features words).isSome = true ∧
        (parse_words_features_with_buffer words buf).isSome = true)
    ∧ (∀ words buf, [] ∈ words →
        parse_words_features words = none ∧
        parse_words_features_with_buffer words buf = none) := by
  constructor
  · intro words buf hw
    have h1 : (parse_words_features words).isSome = true :=
      collectFeatures_isSome words hw (List.range words.length)
        (fun i hi => List.mem_range.mp hi)
    refine ⟨h1, ?_⟩
    rw [with_buffer_spec]
    obtain ⟨fss, hfss⟩ := Option.isSome_iff_exists.mp h1
    rw [hfss]
    exact Option.isSome_some
  · intro words buf hmem
    obtain ⟨n, hn⟩ := List.mem_iff_get?.mp hmem
    have hlt : n < words.length := by
      by_contra hcon
      rw [List.get?_eq_none.mpr (by omega)] at hn
      cases hn
    have hgd : words.getD n [] = [] := by
      rw [List.getD_eq_get words [] hlt]
      rw [List.get?_eq_get hlt] at hn
      exact Option.some.inj hn
    have h2 : parse_words_features words = none :=
      collectFeatures_none words (List.range words.length) n
        (List.mem_range.mpr hlt) (featuresAt_empty words n hgd)
    refine ⟨h2, ?_⟩
    rw [with_buffer_spec, h2]
    rfl

/-- Witness for C9 at a concrete non-empty sentence and a concrete sentence
holding an empty token. -/
theorem extraction_total_iff_words_nonempty_witness :
    ((parse_words_features [['a']]).isSome = true ∧
        (parse_words_features_with_buffer [['a']] []).isSome = true)
    ∧ (parse_words_features [[]] = none ∧
        parse_words_features_with_buffer [[]] [] = none) :=
  ⟨extraction_total_iff_words_nonempty.1 [['a']] [] (by decide),
   extraction_total_iff_words_nonempty.2 [[]] [] (by decide)⟩

/-- Inversion of a successful per-token extraction into its four blocks. -/
theorem featuresAt_inv (words : List Word) (idx : Nat) (fs : List Feature)
    (h : featuresAt words idx = some fs) :
    ∃ c0 cn pb nb,
      (words.getD idx []).get? 0 = some c0
      ∧ (words.getD idx []).get? ((words.getD idx []).length - 1) = some cn
      ∧ preBlock words idx (words.getD idx []) c0 = some pb
      ∧ nextBlock words idx (words.getD idx []) cn = some nb
      ∧ fs = baseBlock (words.getD idx []) c0 cn ++ pb ++ nb
          ++ (if idx > 0 ∧ words.length - idx - 1 > 0 then
                ['b' :: (words.getD (idx - 1) [] ++ words.getD idx []
                  ++ words.getD (idx + 1) [])]
              else []) := by
  simp only [featuresAt] at h
  split at h
  next c0 cn heq1 heq2 =>
    split at h
    next pb nb heq3 heq4 =>
      exact ⟨c0, cn, pb, nb, heq1, heq2, heq3, heq4, (Option.some.inj h).symm⟩
    next => simp at h
  next => simp at h

/-- The size of the `idx > 0` block: 6 features two tokens in, 3 one token in,
0 at the start. -/
theorem preBlock_length (words : List Word) (idx : Nat) (cur_word : Word)
    (c0 : Char) (pb : List Feature)
    (h : preBlock words idx cur_word c0 = some pb) :
    pb.length = if idx > 1 then 6 else if idx > 0 then 3 else 0 := by
  simp only [preBlock] at h
  split at h
  next hpos =>
    split at h
    next pn heq =>
      rw [if_pos hpos]
      by_cases h1 : idx > 1
      · rw [if_pos h1] at h ⊢
        rw [← Option.some.inj h]
        simp
      · rw [if_neg h1] at h ⊢
        rw [← Option.some.inj h]
        simp [hpos]
    next => simp at h
  next hpos =>
    rw [← Option.some.inj h]
    have h1 : ¬ idx > 1 := by omega
    simp [hpos, h1]

/-- The size of the `last > 0` block: 6 features two tokens from the end, 3
one token from the end, 0 at the last token. -/
theorem nextBlock_length (words : List Word) (idx : Nat) (cur_word : Word)
    (cn : Char) (nb : List Feature)
    (h : nextBlock words idx cur_word cn = some nb) :
    nb.length = if words.length - idx - 1 > 1 then 6
      else if words.length - idx - 1 > 0 then 3 else 0 := by
  simp only [nextBlock] at h
  split at h
  next hpos =>
    split at h
    next n0 heq =>
      rw [if_pos hpos]
      by_cases h1 : words.length - idx - 1 > 1
      · rw [if_pos h1] at h ⊢
        rw [← Option.some.inj h]
        simp
      · rw [if_neg h1] at h ⊢
        rw [← Option.some.inj h]
        simp [hpos]
    next => simp at h
  next hpos =>
    rw [← Option.some.inj h]
    have h1 : ¬ words.length - idx - 1 > 1 := by omega
    simp [hpos, h1]

/-- The size of the unconditional block: the three fixed features plus the
prefix and suffix runs, each truncated at `min 3 len`. -/
theorem baseBlock_length (cur_word : Word) (c0 cn : Char) :
    (baseBlock cur_word c0 cn).length = 3 + 2 * min 3 cur_word.length := by
  simp [baseBlock, List.enum_length, List.length_take]
  omega

/-- Exact per-position feature count of a successful extraction. -/
theorem featuresAt_length (words : List Word) (idx : Nat) (fs : List Feature)
    (h : featuresAt words idx = some fs) :
    fs.length = 3 + 2 * min 3 (words.getD idx []).length
      + (if idx > 1 then 6 else if idx > 0 then 3 else 0)
      + (if words.length - idx - 1 > 1 then 6
         else if words.length - idx - 1 > 0 then 3 else 0)
      + (if idx > 0 ∧ words.length - idx - 1 > 0 then 1 else 0) := by
  obtain ⟨c0, cn, pb, nb, _, _, hpb, hnb, hfs⟩ := featuresAt_inv words idx fs h
  subst hfs
  simp only [List.length_append, baseBlock_length,
    preBlock_length words idx _ c0 pb hpb, nextBlock_length words idx _ cn nb hnb]
  by_cases hb : idx > 0 ∧ words.length - idx - 1 > 0
  · rw [if_pos hb, if_pos hb]
    simp
  · rw [if_neg hb, if_neg hb]
    simp

/-- C4: every position of a successful extraction yields at most 22 features,
and exactly 22 with full interior context — at least two tokens before, at
least two tokens after, and a current token of at least 3 characters. -/
theorem per_position_feature_count_bound (words : List Word) (idx : Nat)
    (fs : List Feature) (h : featuresAt words idx = some fs) :
    fs.length ≤ 22
    ∧ (2 ≤ idx → idx + 3 ≤ words.length → 3 ≤ (words.getD idx []).length →
        fs.length = 22) := by
  have hlen := featuresAt_length words idx fs h
  have hmin : min 3 (words.getD idx []).length ≤ 3 := Nat.min_le_left _ _
  constructor
  · rw [hlen]
    split_ifs <;> omega
  · intro h2 h3 hcl
    have hmin3 : min 3 (words.getD idx []).length = 3 := min_eq_left hcl
    rw [hlen, hmin3, if_pos (by omega : idx > 1),
      if_pos (by omega : words.length - idx - 1 > 1),
      if_pos ⟨by omega, by omega⟩]

/-- Witness for C4 at the middle position of a five-token sentence whose
middle token has 3 characters. -/
theorem per_position_feature_count_bound_witness :
    ([['2', 'a', 'b', 'c'], ['c', 'a', 'c'], ['f', '3'], ['c', 'a'], ['d', 'b'],
      ['e', 'c'], ['f', 'c'], ['g', 'b'], ['h', 'a'], ['1', 'q'],
      ['6', 'q', 'a', 'b', 'c'], ['d', 'q', 'a'], ['0', 'p'], ['5', 'p', 'q'],
      ['9', 'p', 'a', 'b', 'c'], ['3', 'r'], ['7', 'a', 'b', 'c', 'r'],
      ['e', 'c', 'r'], ['4', 's'], ['8', 'r', 's'], ['a', 'a', 'b', 'c', 's'],
      ['b', 'q', 'a', 'b', 'c', 'r']] : List Feature).length ≤ 22
    ∧ ([['2', 'a', 'b', 'c'], ['c', 'a', 'c'], ['f', '3'], ['c', 'a'], ['d', 'b'],
      ['e', 'c'], ['f', 'c'], ['g', 'b'], ['h', 'a'], ['1', 'q'],
      ['6', 'q', 'a', 'b', 'c'], ['d', 'q', 'a'], ['0', 'p'], ['5', 'p', 'q'],
      ['9', 'p', 'a', 'b', 'c'], ['3', 'r'], ['7', 'a', 'b', 'c', 'r'],
      ['e', 'c', 'r'], ['4', 's'], ['8', 'r', 's'], ['a', 'a', 'b', 'c', 's'],
      ['b', 'q', 'a', 'b', 'c', 'r']] : List Feature).length = 22 :=
  ⟨(per_position_feature_count_bound [['p'], ['q'], ['a', 'b', 'c'], ['r'], ['s']] 2
      [['2', 'a', 'b', 'c'], ['c', 'a', 'c'], ['f', '3'], ['c', 'a'], ['d', 'b'],
       ['e', 'c'], ['f', 'c'], ['g', 'b'], ['h', 'a'], ['1', 'q'],
       ['6', 'q', 'a', 'b', 'c'], ['d', 'q', 'a'], ['0', 'p'], ['5', 'p', 'q'],
       ['9', 'p', 'a', 'b', 'c'], ['3', 'r'], ['7', 'a', 'b', 'c', 'r'],
       ['e', 'c', 'r'], ['4', 's'], ['8', 'r', 's'], ['a', 'a', 'b', 'c', 's'],
       ['b', 'q', 'a', 'b', 'c', 'r']] (by decide)).1,
   (per_position_feature_count_bound [['p'], ['q'], ['a', 'b', 'c'], ['r'], ['s']] 2
      [['2', 'a', 'b', 'c'], ['c', 'a', 'c'], ['f', '3'], ['c', 'a'], ['d', 'b'],
       ['e', 'c'], ['f', 'c'], ['g', 'b'], ['h', 'a'], ['1', 'q'],
       ['6', 'q', 'a', 'b', 'c'], ['d', 'q', 'a'], ['0', 'p'], ['5', 'p', 'q'],
       ['9', 'p', 'a', 'b', 'c'], ['3', 'r'], ['7', 'a', 'b', 'c', 'r'],
       ['e', 'c', 'r'], ['4', 's'], ['8', 'r', 's'], ['a', 'a', 'b', 'c', 's'],
       ['b', 'q', 'a', 'b', 'c', 'r']] (by decide)).2
     (by decide) (by decide) (by decide)⟩

/-- C2 as stated is false: a one-token sentence whose token has a single
character yields 5 features, not 9. -/
theorem c2_counterexample :
    (parse_words_features [['a']]).map (List.map List.length) = some [5]
    ∧ (parse_words_features [['a']]).map (List.map List.length) ≠ some [9] := by
  refine ⟨by decide, by decide⟩

/-- C2 (amended): for every one-token sentence whose token has at least 3
characters, `parse_words_features` yields exactly 9 features; for every
two-token sentence whose tokens each have at least 3 characters it yields
exactly 12 features per token, the three extra features of the first token
carrying markers `3`, `7`, `e` and those of the second carrying `1`, `6`, `d`.
(In general the unconditional block contributes `3 + 2 * min 3 len` features,
so the stated counts need tokens of at least 3 characters.) -/
theorem boundary_counts (w w1 w2 : Word)
    (h : 3 ≤ w.length) (h1 : 3 ≤ w1.length) (h2 : 3 ≤ w2.length) :
    (parse_words_features [w]).map (List.map List.length) = some [9]
    ∧ (parse_words_features [w1, w2]).map (List.map List.length) = some [12, 12]
    ∧ (parse_words_features [w1, w2]).map
        (List.map (fun fs => (fs.drop 9).map (fun f => f.headD ' ')))
      = some [['3', '7', 'e'], ['1', '6', 'd']] := by
  have hwne : w ≠ [] := by intro e; subst e; simp at h
  have h1ne : w1 ≠ [] := by intro e; subst e; simp at h1
  have h2ne : w2 ≠ [] := by intro e; subst e; simp at h2
  have hws : ∀ x ∈ [w], x ≠ [] := by
    intro x hx; rw [List.mem_singleton] at hx; subst hx; exact hwne
  have hws2 : ∀ x ∈ [w1, w2], x ≠ [] := by
    intro x hx
    rcases List.mem_cons.mp hx with hx | hx
    · subst hx; exact h1ne
    · rw [List.mem_singleton] at hx; subst hx; exact h2ne
  obtain ⟨fs, hfs⟩ := Option.isSome_iff_exists.mp
    (featuresAt_isSome [w] 0 (by simp) hws)
  obtain ⟨fs0, hfs0⟩ := Option.isSome_iff_exists.mp
    (featuresAt_isSome [w1, w2] 0 (by simp) hws2)
  obtain ⟨fs1, hfs1⟩ := Option.isSome_iff_exists.mp
    (featuresAt_isSome [w1, w2] 1 (by simp) hws2)
  have hr1 : List.range 1 = [0] := rfl
  have hr2 : List.range 2 = [0, 1] := rfl
  have hp1 : parse_words_features [w] = some [fs] := by
    simp [parse_words_features, hr1, collectFeatures, hfs]
  have hp2 : parse_words_features [w1, w2] = some [fs0, fs1] := by
    simp [parse_words_features, hr2, collectFeatures, hfs0, hfs1]
  have hm : min 3 w.length = 3 := min_eq_left h
  have hm1 : min 3 w1.length = 3 := min_eq_left h1
  have hm2 : min 3 w2.length = 3 := min_eq_left h2
  have hlen := featuresAt_length [w] 0 fs hfs
  have hlen0 := featuresAt_length [w1, w2] 0 fs0 hfs0
  have hlen1 := featuresAt_length [w1, w2] 1 fs1 hfs1
  simp only [List.getD_cons_zero, List.getD_cons_succ, List.length_cons,
    List.length_nil] at hlen hlen0 hlen1
  norm_num [hm, hm1, hm2] at hlen hlen0 hlen1
  -- structure of the first token of the two-token sentence
  obtain ⟨c0, cn, pb, nb, hc0, hcn, hpb, hnb, hfs0eq⟩ :=
    featuresAt_inv [w1, w2] 0 fs0 hfs0
  simp only [List.getD_cons_zero, List.getD_cons_succ, List.length_cons,
    List.length_nil] at hc0 hcn hpb hnb hfs0eq
  have hpbnil : pb = [] := by
    have he : preBlock [w1, w2] 0 w1 c0 = some [] := rfl
    exact Option.some.inj (hpb.symm.trans he)
  have hnbstr : ∃ n0, w2[0]? = some n0
      ∧ nb = ['3' :: w2, '7' :: (w1 ++ w2), ['e', cn, n0]] := by
    simp only [nextBlock, List.length_cons, List.length_nil, List.getD_cons_zero,
      List.getD_cons_succ] at hnb
    norm_num at hnb
    split at hnb
    next n0 heq => exact ⟨n0, heq, by simpa using (Option.some.inj hnb).symm⟩
    next => simp at hnb
  obtain ⟨n0, hn0, hnbeq⟩ := hnbstr
  have hfs0str : fs0 = baseBlock w1 c0 cn ++ ['3' :: w2, '7' :: (w1 ++ w2), ['e', cn, n0]] := by
    rw [hfs0eq, hpbnil, hnbeq]
    norm_num
  have hbl0 : (baseBlock w1 c0 cn).length = 9 := by
    rw [baseBlock_length, hm1]
  have hdrop0 : fs0.drop 9 = ['3' :: w2, '7' :: (w1 ++ w2), ['e', cn, n0]] := by
    rw [hfs0str, ← hbl0, List.drop_left]
  -- structure of the second token of the two-token sentence
  obtain ⟨c0', cn', pb', nb', hc0', hcn', hpb', hnb', hfs1eq⟩ :=
    featuresAt_inv [w1, w2] 1 fs1 hfs1
  simp only [List.getD_cons_zero, List.getD_cons_succ, List.length_cons,
    List.length_nil] at hc0' hcn' hpb' hnb' hfs1eq
  have hnbnil : nb' = [] := by
    have he : nextBlock [w1, w2] 1 w2 cn' = some [] := rfl
    exact Option.some.inj (hnb'.symm.trans he)
  have hpbstr : ∃ pn, w1[w1.length - 1]? = some pn
      ∧ pb' = ['1' :: w1, '6' :: (w1 ++ w2), ['d', pn, c0']] := by
    simp only [preBlock, List.getD_cons_zero, List.getD_cons_succ] at hpb'
    norm_num at hpb'
    split at hpb'
    next pn heq => exact ⟨pn, heq, by simpa using (Option.some.inj hpb').symm⟩
    next => simp at hpb'
  obtain ⟨pn, hpn, hpbeq⟩ := hpbstr
  have hfs1str : fs1 = baseBlock w2 c0' cn' ++ ['1' :: w1, '6' :: (w1 ++ w2), ['d', pn, c0']] := by
    rw [hfs1eq, hpbeq, hnbnil]
    norm_num
  have hbl1 : (baseBlock w2 c0' cn').length = 9 := by
    rw [baseBlock_length, hm2]
  have hdrop1 : fs1.drop 9 = ['1' :: w1, '6' :: (w1 ++ w2), ['d', pn, c0']] := by
    rw [hfs1str, ← hbl1, List.drop_left]
  refine ⟨?_, ?_, ?_⟩
  · rw [hp1]
    dsimp only [Option.map, List.map]
    rw [hlen]
  · rw [hp2]
    dsimp only [Option.map, List.map]
    rw [hlen0, hlen1]
  · rw [hp2]
    dsimp only [Option.map, List.map]
    rw [hdrop0, hdrop1]
    rfl

/-- Witness for C2 (amended) at concrete 3-character tokens. -/
theorem boundary_counts_witness :
    (parse_words_features [['a', 'b', 'c']]).map (List.map List.length) = some [9]
    ∧ (parse_words_features [['d', 'e', 'f'], ['g', 'h', 'i']]).map
        (List.map List.length) = some [12, 12]
    ∧ (parse_words_features [['d', 'e', 'f'], ['g', 'h', 'i']]).map
        (List.map (fun fs => (fs.drop 9).map (fun f => f.headD ' ')))
      = some [['3', '7', 'e'], ['1', '6', 'd']] :=
  boundary_counts ['a', 'b', 'c'] ['d', 'e', 'f'] ['g', 'h', 'i']
    (by decide) (by decide) (by decide)

/-- The marker-indexed enumeration of a run of at most 3 characters is the
zip of the marker list with that run. -/
theorem enum_map_eq_zipWith (m0 m1 m2 d : Char) (l : List Char) :
    (l.take 3).enum.map (fun bc => [([m0, m1, m2]).getD bc.1 d, bc.2])
      = List.zipWith (fun m c => [m, c]) [m0, m1, m2] (l.take 3) :=
  match l with
  | [] => rfl
  | [_] => rfl
  | [_, _] => rfl
  | _ :: _ :: _ :: _ => rfl

/-- The unconditional block, with its prefix and suffix runs written as zips
against the marker lists. -/
theorem baseBlock_eq_zipWith (w : Word) (c0 cn : Char) :
    baseBlock w c0 cn
      = ['2' :: w, ['c', c0, cn], 'f' :: natDigits w.length]
        ++ List.zipWith (fun m c => [m, c]) ['c', 'd', 'e'] (w.take 3)
        ++ List.zipWith (fun m c => [m, c]) ['f', 'g', 'h'] (w.reverse.take 3) := by
  have hp := enum_map_eq_zipWith 'c' 'd' 'e' 'c' w
  have hs := enum_map_eq_zipWith 'f' 'g' 'h' 'f' w.reverse
  simp only [baseBlock, prefix_id, suffix_id]
  rw [hp, hs]

/-- C3: at every position holding a word `w`, the unconditionally emitted
block is, in order: `2`+w, `c`+first+last char, `f`+decimal character length,
the prefix run `c`,`d`,`e` over the first `min 3 len` characters, and the
suffix run `f`,`g`,`h` over the last `min 3 len` characters taken from the
end inward — `3 + 2 * min 3 len` features in total, counted over Unicode
scalar values. -/
theorem unconditional_block_content (words : List Word) (idx : Nat) (w : Word)
    (fs : List Feature) (hw : words.get? idx = some w)
    (h : featuresAt words idx = some fs) :
    ∃ rest, fs
        = (['2' :: w, ['c', w.getD 0 ' ', w.getD (w.length - 1) ' '],
            'f' :: natDigits w.length]
          ++ List.zipWith (fun m c => [m, c]) ['c', 'd', 'e'] (w.take 3)
          ++ List.zipWith (fun m c => [m, c]) ['f', 'g', 'h'] (w.reverse.take 3))
          ++ rest
      ∧ (['2' :: w, ['c', w.getD 0 ' ', w.getD (w.length - 1) ' '],
            'f' :: natDigits w.length]
          ++ List.zipWith (fun m c => [m, c]) ['c', 'd', 'e'] (w.take 3)
          ++ List.zipWith (fun m c => [m, c]) ['f', 'g', 'h'] (w.reverse.take 3)).length
        = 3 + 2 * min 3 w.length := by
  obtain ⟨c0, cn, pb, nb, hc0, hcn, hpb, hnb, hfseq⟩ := featuresAt_inv words idx fs h
  have hgd : words.getD idx [] = w := by
    rw [List.getD_eq_get?, hw]
    rfl
  rw [hgd] at hc0 hcn hfseq
  have hc0' : w.getD 0 ' ' = c0 := by
    rw [List.getD_eq_get?, hc0]
    rfl
  have hcn' : w.getD (w.length - 1) ' ' = cn := by
    rw [List.getD_eq_get?, hcn]
    rfl
  refine ⟨pb ++ (nb ++ (if idx > 0 ∧ words.length - idx - 1 > 0 then
      ['b' :: (words.getD (idx - 1) [] ++ w ++ words.getD (idx + 1) [])]
    else [])), ?_, ?_⟩
  · rw [hfseq, baseBlock_eq_zipWith, hc0', hcn']
    simp [List.append_assoc]
  · have hmm : min 3 (min 3 w.length) = min 3 w.length := by
      rw [← min_assoc, min_self]
    simp only [List.length_append, List.length_cons, List.length_nil,
      List.length_zipWith, List.length_take, List.length_reverse, hmm]
    omega

/-- Witness for C3 at position 0 of the one-token sentence `["ab"]`. -/
theorem unconditional_block_content_witness :
    ∃ rest, ([['2', 'a', 'b'], ['c', 'a', 'b'], ['f', '2'], ['c', 'a'], ['d', 'b'],
        ['f', 'b'], ['g', 'a']] : List Feature)
        = (['2' :: (['a', 'b'] : Word),
            ['c', (['a', 'b'] : Word).getD 0 ' ',
              (['a', 'b'] : Word).getD ((['a', 'b'] : Word).length - 1) ' '],
            'f' :: natDigits (['a', 'b'] : Word).length]
          ++ List.zipWith (fun m c => [m, c]) ['c', 'd', 'e'] ((['a', 'b'] : Word).take 3)
          ++ List.zipWith (fun m c => [m, c]) ['f', 'g', 'h']
              ((['a', 'b'] : Word).reverse.take 3))
          ++ rest
      ∧ (['2' :: (['a', 'b'] : Word),
            ['c', (['a', 'b'] : Word).getD 0 ' ',
              (['a', 'b'] : Word).getD ((['a', 'b'] : Word).length - 1) ' '],
            'f' :: natDigits (['a', 'b'] : Word).length]
          ++ List.zipWith (fun m c => [m, c]) ['c', 'd', 'e'] ((['a', 'b'] : Word).take 3)
          ++ List.zipWith (fun m c => [m, c]) ['f', 'g', 'h']
              ((['a', 'b'] : Word).reverse.take 3)).length
        = 3 + 2 * min 3 (['a', 'b'] : Word).length :=
  unconditional_block_content [['a', 'b']] 0 ['a', 'b']
    [['2', 'a', 'b'], ['c', 'a', 'b'], ['f', '2'], ['c', 'a'], ['d', 'b'],
      ['f', 'b'], ['g', 'a']] (by decide) (by decide)

/-- A label present in the vocabulary is found by `label_to`, at an index
that holds that label. -/
theorem label_to_mem (d : POSDefinition) (label : Word)
    (hmem : label ∈ d.to_labels) :
    ∃ i, d.label_to label = some i ∧ d.to_labels.get? i = some label := by
  cases hfind : d.to_labels.enum.reverse.find? (fun p => p.2 == label) with
  | none =>
    exfalso
    rw [List.find?_eq_none] at hfind
    obtain ⟨i, hi⟩ := List.mem_iff_get?.mp hmem
    have hin : (i, label) ∈ d.to_labels.enum.reverse := by
      rw [List.mem_reverse]
      exact List.mem_enum_iff_get?.mpr hi
    exact absurd (by simp : ((i, label).2 == label) = true) (hfind _ hin)
  | some p =>
    have hp : p.2 = label := by
      have := List.find?_some hfind
      rwa [beq_iff_eq] at this
    have hpmem : p ∈ d.to_labels.enum := List.mem_reverse.mp
      (List.mem_of_find?_eq_some hfind)
    refine ⟨p.1, ?_, ?_⟩
    · unfold POSDefinition.label_to
      rw [hfind]
      rfl
    · rw [← hp]
      exact List.mem_enum_iff_get?.mp hpmem

/-- C7: `label_to` distinguishes unknown labels — it fails (the missing-key
lookup, modelled `none`) exactly on labels outside the vocabulary, and for a
label in the vocabulary it returns an index at which the vocabulary holds
that label. -/
theorem unknown_label_fails (labels : List Word) (l : Word) :
    ((POSDefinition.new labels).label_to l = none ↔ l ∉ labels)
    ∧ (l ∈ labels →
        ((POSDefinition.new labels).label_to l).bind (fun i => labels.get? i)
          = some l) := by
  constructor
  · constructor
    · intro hnone hmem
      obtain ⟨i, hsome, _⟩ := label_to_mem (POSDefinition.new labels) l hmem
      rw [hnone] at hsome
      cases hsome
    · intro hmem
      unfold POSDefinition.label_to
      rw [Option.map_eq_none']
      rw [List.find?_eq_none]
      intro p hp
      simp only [beq_iff_eq]
      intro he
      apply hmem
      have hpmem : p ∈ labels.enum := List.mem_reverse.mp hp
      have := List.mem_enum_iff_get?.mp hpmem
      rw [he] at this
      exact List.get?_mem this
  · intro hmem
    obtain ⟨i, hsome, hget⟩ := label_to_mem (POSDefinition.new labels) l hmem
    rw [hsome]
    exact hget

/-- Witness for C7: lookup failure on a label outside the vocabulary and
success on one inside it. -/
theorem unknown_label_fails_witness :
    ((POSDefinition.new [['r'], ['v']]).label_to ['z'] = none ↔ ['z'] ∉ [['r'], ['v']])
    ∧ ((POSDefinition.new [['r'], ['v']]).label_to ['v']).bind
        (fun i => [['r'], ['v']].get? i) = some ['v'] :=
  ⟨(unknown_label_fails [['r'], ['v']] ['z']).1,
   (unknown_label_fails [['r'], ['v']] ['v']).2 (by decide)⟩

/-- C6: built from distinct labels, the dictionary is a bijection preserving
source order as index order: composing `label_to` and `to_label` either way
round-trips, `to_label` returns the i-th supplied label, and `label_num` is
the vocabulary size. -/
theorem label_dictionary_bijection (labels : List Word) (hnd : labels.Nodup)
    (l : Word) (i : Nat) (hl : l ∈ labels) (hi : i < labels.length) :
    (POSDefinition.new labels).label_num = labels.length
    ∧ ((POSDefinition.new labels).label_to l).bind
        (POSDefinition.new labels).to_label = some l
    ∧ ((POSDefinition.new labels).to_label i).bind
        (POSDefinition.new labels).label_to = some i
    ∧ (POSDefinition.new labels).to_label i = labels.get? i := by
  refine ⟨rfl, ?_, ?_, rfl⟩
  · obtain ⟨j, hsome, hget⟩ := label_to_mem (POSDefinition.new labels) l hl
    rw [hsome]
    exact hget
  · have hget : labels.get? i = some (labels.get ⟨i, hi⟩) := List.get?_eq_get hi
    have hmem : labels.get ⟨i, hi⟩ ∈ labels := List.get_mem labels i hi
    obtain ⟨j, hsome, hgetj⟩ := label_to_mem (POSDefinition.new labels)
      (labels.get ⟨i, hi⟩) hmem
    have hgetj2 : labels.get? j = some (labels.get ⟨i, hi⟩) := hgetj
    have hjlt : j < labels.length := by
      by_contra hcon
      rw [List.get?_eq_none.mpr (by omega)] at hgetj2
      cases hgetj2
    have hij : j = i := List.get?_inj hjlt hnd (by rw [hgetj2, hget])
    have hto : (POSDefinition.new labels).to_label i
        = some (labels.get ⟨i, hi⟩) := hget
    rw [hto]
    dsimp only [Option.bind]
    rw [hsome, hij]

/-- Witness for C6 on the vocabulary `["r", "v", "y"]`. -/
theorem label_dictionary_bijection_witness :
    (POSDefinition.new [['r'], ['v'], ['y']]).label_num = [['r'], ['v'], ['y']].length
    ∧ ((POSDefinition.new [['r'], ['v'], ['y']]).label_to ['v']).bind
        (POSDefinition.new [['r'], ['v'], ['y']]).to_label = some ['v']
    ∧ ((POSDefinition.new [['r'], ['v'], ['y']]).to_label 2).bind
        (POSDefinition.new [['r'], ['v'], ['y']]).label_to = some 2
    ∧ (POSDefinition.new [['r'], ['v'], ['y']]).to_label 2
        = [['r'], ['v'], ['y']].get? 2 :=
  label_dictionary_bijection [['r'], ['v'], ['y']] (by decide) ['v'] 2
    (by decide) (by decide)

theorem takeWhile_append_all (p : Char → Bool) (l1 l2 : List Char)
    (h : ∀ x ∈ l1, p x = true) :
    (l1 ++ l2).takeWhile p = l1 ++ l2.takeWhile p := by
  induction l1 with
  | nil => rfl
  | cons a l1 ih =>
    have ha : p a = true := h a (by simp)
    have hrest := ih (fun x hx => h x (by simp [hx]))
    simp [List.takeWhile_cons, ha, hrest]

theorem dropWhile_append_all (p : Char → Bool) (l1 l2 : List Char)
    (h : ∀ x ∈ l1, p x = true) :
    (l1 ++ l2).dropWhile p = l2.dropWhile p := by
  induction l1 with
  | nil => rfl
  | cons a l1 ih =>
    have ha : p a = true := h a (by simp)
    have hrest := ih (fun x hx => h x (by simp [hx]))
    simp [List.dropWhile_cons, ha, hrest]

/-- A token whose `rsplit2` fails poisons the whole word/tag loop. -/
theorem collectWT_none (d : POSDefinition) (ts : List Word) (t : Word)
    (ht : t ∈ ts) (hnone : rsplit2 t = none) :
    collectWT d ts = none := by
  induction ts with
  | nil => cases ht
  | cons u us ih =>
    simp only [collectWT]
    rcases List.mem_cons.mp ht with h | h
    · subst h
      rw [hnone]
    · rw [ih h]
      cases rsplit2 u with
      | none => rfl
      | some lw =>
        obtain ⟨la, wo⟩ := lw
        dsimp only
        cases d.label_to la <;> rfl

/-- C5: each whitespace-separated token is split at its rightmost `/` into
`(word, tag)` — so words may contain `/` and a token lacking `/` is fatal for
the parse of that line — and on the vocabulary `["r","v","y"]` the line
`"他/r 来/v 了/y"` parses to one sample whose labels are `[0, 1, 2]` and whose
feature sets equal `parse_words_features ["他","来","了"]`. -/
theorem gold_line_parsing (w l t line : Word) (d : POSDefinition) :
    (('/' ∉ l) → rsplit2 (w ++ '/' :: l) = some (l, w))
    ∧ (('/' ∉ t) → rsplit2 t = none)
    ∧ (t ∈ splitWS line → ('/' ∉ t) → parse_line d line = none)
    ∧ parse_gold_features (POSDefinition.new [['r'], ['v'], ['y']])
        [['他', '/', 'r', ' ', '来', '/', 'v', ' ', '了', '/', 'y']]
      = (parse_words_features [['他'], ['来'], ['了']]).map
          (fun F => [(F, [0, 1, 2])]) := by
  refine ⟨?_, ?_, ?_, by decide⟩
  · intro hl
    have hall : ∀ x ∈ l.reverse, (x != '/') = true := by
      intro x hx
      rw [List.mem_reverse] at hx
      simp only [bne_iff_ne, ne_eq]
      intro he
      exact hl (he ▸ hx)
    have hrev : (w ++ '/' :: l).reverse = l.reverse ++ '/' :: w.reverse := by
      rw [List.reverse_append, List.reverse_cons]
      simp [List.append_assoc]
    simp only [rsplit2, hrev]
    rw [takeWhile_append_all _ _ _ hall, dropWhile_append_all _ _ _ hall]
    simp [List.takeWhile_cons, List.dropWhile_cons]
  · intro ht
    have hall : ∀ x ∈ t.reverse, (x != '/') = true := by
      intro x hx
      rw [List.mem_reverse] at hx
      simp only [bne_iff_ne, ne_eq]
      intro he
      exact ht (he ▸ hx)
    simp only [rsplit2]
    rw [List.dropWhile_eq_nil_iff.mpr hall]
  · intro hmem hslash
    have hr : rsplit2 t = none := by
      have hall : ∀ x ∈ t.reverse, (x != '/') = true := by
        intro x hx
        rw [List.mem_reverse] at hx
        simp only [bne_iff_ne, ne_eq]
        intro he
        exact hslash (he ▸ hx)
      simp only [rsplit2]
      rw [List.dropWhile_eq_nil_iff.mpr hall]
    simp only [parse_line]
    rw [collectWT_none d (splitWS line) t hmem hr]

/-- Witness for C5: the rightmost-slash split on `"a/b/r"`, the failure on
`"abc"`, and the fatal line parse for a line holding `"abc"`. -/
theorem gold_line_parsing_witness :
    (rsplit2 (['a', '/', 'b'] ++ '/' :: ['r']) = some (['r'], ['a', '/', 'b']))
    ∧ (rsplit2 ['a', 'b', 'c'] = none)
    ∧ (parse_line (POSDefinition.new [['r']]) ['a', 'b', 'c'] = none)
    ∧ parse_gold_features (POSDefinition.new [['r'], ['v'], ['y']])
        [['他', '/', 'r', ' ', '来', '/', 'v', ' ', '了', '/', 'y']]
      = (parse_words_features [['他'], ['来'], ['了']]).map
          (fun F => [(F, [0, 1, 2])]) :=
  ⟨(gold_line_parsing ['a', '/', 'b'] ['r'] ['a', 'b', 'c'] ['a', 'b', 'c']
      (POSDefinition.new [['r']])).1 (by decide),
   (gold_line_parsing ['a', '/', 'b'] ['r'] ['a', 'b', 'c'] ['a', 'b', 'c']
      (POSDefinition.new [['r']])).2.1 (by decide),
   (gold_line_parsing ['a', '/', 'b'] ['r'] ['a', 'b', 'c'] ['a', 'b', 'c']
      (POSDefinition.new [['r']])).2.2.1 (by decide) (by decide),
   (gold_line_parsing ['a', '/', 'b'] ['r'] ['a', 'b', 'c'] ['a', 'b', 'c']
      (POSDefinition.new [['r']])).2.2.2⟩

/-- The in-order sample loop: on success it yields one sample per line, the
i-th sample being the parse of the i-th line. -/
theorem collectSamples_spec (d : POSDefinition) (ls : List Word)
    (samples : List Sample) (h : collectSamples d ls = some samples) :
    samples.length = ls.length
    ∧ ∀ i, i < ls.length → parse_line d (ls.getD i []) = samples.get? i := by
  induction ls generalizing samples with
  | nil =>
    cases Option.some.inj h
    exact ⟨rfl, fun i hi => absurd hi (by simp)⟩
  | cons l ls ih =>
    simp only [collectSamples] at h
    cases hl : parse_line d l with
    | none => rw [hl] at h; cases h
    | some s =>
      rw [hl] at h
      cases hr : collectSamples d ls with
      | none => rw [hr] at h; cases h
      | some rest =>
        rw [hr] at h
        cases Option.some.inj h
        obtain ⟨hlen, hidx⟩ := ih rest hr
        refine ⟨by simp [hlen], ?_⟩
        intro i hi
        cases i with
        | zero => exact hl
        | succ n =>
          simp only [List.getD_cons_succ, List.get?]
          exact hidx n (by simpa using hi)

/-- C8: the sample sequence returned by `parse_gold_features` preserves line
order — it has one sample per non-blank line and its i-th sample is the parse
of the i-th non-blank line; blank lines contribute no sample.  (The parallel
`par_iter().map(..).collect_into_vec` of the parallel build is an order-preserving indexed
map, embedded here by its sequential specification.) -/
theorem gold_samples_preserve_order (d : POSDefinition) (lines : List Word)
    (samples : List Sample) (i : Nat)
    (h : parse_gold_features d lines = some samples) (hi : i < samples.length) :
    samples.length = (lines.filter (fun s => !s.isEmpty)).length
    ∧ samples.get? i
        = parse_line d ((lines.filter (fun s => !s.isEmpty)).getD i []) := by
  obtain ⟨hlen, hidx⟩ := collectSamples_spec d (lines.filter (fun s => !s.isEmpty))
    samples h
  exact ⟨hlen, (hidx i (by omega)).symm⟩

/-- Witness for C8: two tagged lines around a blank line; the second sample is
the parse of the second non-blank line. -/
theorem gold_samples_preserve_order_witness :
    ([(([[['2', 'a'], ['c', 'a', 'a'], ['f', '1'], ['c', 'a'], ['f', 'a']]],
          [0]) : Sample),
      (([[['2', 'b'], ['c', 'b', 'b'], ['f', '1'], ['c', 'b'], ['f', 'b']]],
          [0]) : Sample)].length
      = ([['a', '/', 'r'], [], ['b', '/', 'r']].filter
          (fun s => !s.isEmpty)).length)
    ∧ ([(([[['2', 'a'], ['c', 'a', 'a'], ['f', '1'], ['c', 'a'], ['f', 'a']]],
          [0]) : Sample),
      (([[['2', 'b'], ['c', 'b', 'b'], ['f', '1'], ['c', 'b'], ['f', 'b']]],
          [0]) : Sample)].get? 1
        = parse_line (POSDefinition.new [['r']])
            (([['a', '/', 'r'], [], ['b', '/', 'r']].filter
              (fun s => !s.isEmpty)).getD 1 [])) :=
  gold_samples_preserve_order (POSDefinition.new [['r']])
    [['a', '/', 'r'], [], ['b', '/', 'r']]
    [(([[['2', 'a'], ['c', 'a', 'a'], ['f', '1'], ['c', 'a'], ['f', 'a']]], [0]) : Sample),
     (([[['2', 'b'], ['c', 'b', 'b'], ['f', '1'], ['c', 'b'], ['f', 'b']]], [0]) : Sample)]
    1 (by decide) (by decide)

end POS
